import Mathlib

/-!
Shallow embedding of the listing ingestion / normalization / scoring pipeline
of `backend/app.py` (memory backend).  Python strings are modelled as lists of
code points (`PyStr`), Python floats as exact rationals, machine ints as `Int`.
-/

set_option maxRecDepth 8000

namespace AppSpec

/-- A Python string, modelled as its list of code points. -/
abbrev PyStr := List Nat

/-- The whitespace code points stripped by Python `str.strip()` (ASCII range). -/
def isWsCh (n : Nat) : Bool :=
  n == 32 || n == 9 || n == 10 || n == 13 || n == 11 || n == 12

/-- Python `str.upper` on a single ASCII code point. -/
def upperCh (n : Nat) : Nat :=
  if 97 ≤ n ∧ n ≤ 122 then n - 32 else n

/-- Left strip: Python `str.lstrip()`. -/
def lstripS (l : PyStr) : PyStr := l.dropWhile isWsCh

/-- Right strip: Python `str.rstrip()`: drop trailing whitespace. -/
def rstripS (l : PyStr) : PyStr := l.rdropWhile isWsCh

/-- Python `str.strip()`: remove leading and trailing whitespace. -/
def pyStrip (l : PyStr) : PyStr := rstripS (lstripS l)

/-- Python `str.upper()`. -/
def pyUpper (l : PyStr) : PyStr := l.map upperCh

/-- VIN canonicalization used at lines 155/189/309 of `app.py`:
`(vin or "").strip().upper()` (the `or ""` is the identity on strings). -/
def canonVin (v : PyStr) : PyStr := pyUpper (pyStrip v)

/-- Python `int()` truncation toward zero on an exact rational. -/
def pyInt (q : ℚ) : Int := if 0 ≤ q then ⌊q⌋ else ⌈q⌉

/-- Python `round` to the nearest integer, ties to even (banker's rounding),
on an exact rational. -/
def pyRoundNearestEven (q : ℚ) : Int :=
  if q - ⌊q⌋ < 1/2 then ⌊q⌋
  else if 1/2 < q - ⌊q⌋ then ⌊q⌋ + 1
  else if ⌊q⌋ % 2 = 0 then ⌊q⌋ else ⌊q⌋ + 1

/-- Python `round(x, 2)`: round to two decimal places. -/
def round2 (q : ℚ) : ℚ := (pyRoundNearestEven (q * 100) : ℚ) / 100

/-- The `Listing` request model of `app.py` (input to `/score`). -/
structure Listing where
  vin : PyStr
  price : ℚ
  miles : Int
  dom : Int
  source : Option String := none
deriving DecidableEq, Repr

/-- The `ScoreResponse` model of `app.py`. -/
structure ScoreResponse where
  vin : PyStr
  score : Int
  buyMax : ℚ
  reasonCodes : List String
deriving DecidableEq, Repr

/-- The `StoredListing` model of `app.py`. -/
@[ext]
structure StoredListing where
  id : String
  vin : PyStr
  year : Int
  make : PyStr
  model : PyStr
  trim : Option PyStr := none
  miles : Int
  price : ℚ
  score : Option Int := none
  dom : Int
  source : Option String := none
  radius : Option Int := some 25
  reasonCodes : List String := []
  buyMax : Option ℚ := none
  created_at : Nat := 0
deriving DecidableEq, Repr

/-- Association-list read, the model of Python `dict` lookup / `.get`. -/
def alistGet {α β : Type} [DecidableEq α] (k : α) : List (α × β) → Option β
  | [] => none
  | (k', v) :: rest => if k' = k then some v else alistGet k rest

/-- Association-list write, the model of Python `d[k] = v`: replace the value
in place if the key is present (keeping its position), else append. -/
def alistSet {α β : Type} [DecidableEq α] (k : α) (v : β) :
    List (α × β) → List (α × β)
  | [] => [(k, v)]
  | (k', v') :: rest =>
    if k' = k then (k, v) :: rest else (k', v') :: alistSet k v rest

/-- The in-memory store of `app.py`: `_by_id` and `_ids_by_vin`, both
insertion-ordered maps. -/
@[ext]
structure Store where
  byId : List (String × StoredListing)
  idsByVin : List (PyStr × List String)
deriving DecidableEq, Repr

/-- The empty in-memory store (process start). -/
def emptyStore : Store := { byId := [], idsByVin := [] }

/-- The normalization applied to each item inside `ingest`
(lines 188-195 of `app.py`). -/
def normalize (item : StoredListing) : StoredListing :=
  { item with
    vin := pyUpper (pyStrip item.vin)
    make := pyStrip item.make
    model := pyStrip item.model
    trim := item.trim.map pyStrip
    radius :=
      if item.radius = none ∨ item.radius = some 0 then some 25
      else item.radius }

/-- `_ids_by_vin.setdefault(vin, [])` followed by appending `id` when absent
(lines 197-199 of `app.py`). -/
def vinIndexAdd (vin : PyStr) (id : String) (idx : List (PyStr × List String)) :
    List (PyStr × List String) :=
  match alistGet vin idx with
  | none => alistSet vin [id] idx
  | some l => if id ∈ l then idx else alistSet vin (l ++ [id]) idx

/-- One iteration of the memory-backend ingest loop (lines 187-200):
normalize, store under its id, index its id under its VIN. -/
def ingestOne (s : Store) (item : StoredListing) : Store × StoredListing :=
  let norm := normalize item
  ({ byId := alistSet norm.id norm s.byId
     idsByVin := vinIndexAdd norm.vin norm.id s.idsByVin }, norm)

/-- The `/ingest` endpoint, memory backend: sequentially ingest a batch and
return the normalized stored forms in order. -/
def ingest (s : Store) : List StoredListing → Store × List StoredListing
  | [] => (s, [])
  | item :: rest =>
    let r := ingestOne s item
    let rr := ingest r.1 rest
    (rr.1, r.2 :: rr.2)

/-- The `/listings` endpoint, memory backend: `list(_by_id.values())`, i.e.
the stored listings in id-insertion order (line 248 of `app.py`). -/
def list_listings (s : Store) : List StoredListing := s.byId.map Prod.snd

/-- `dom_penalty` (line 286): `max(0, 30 - dom) / 30`. -/
def dom_penalty (dom : Int) : ℚ := ((max 0 (30 - dom) : Int) : ℚ) / 30

/-- `miles_penalty` (line 287): `max(0, 100000 - miles) / 100000`. -/
def miles_penalty (miles : Int) : ℚ :=
  ((max 0 (100000 - miles) : Int) : ℚ) / 100000

/-- The reason codes accumulated by the scoring loop, in append order
(lines 292-306 of `app.py`). -/
def scoreReasons (item : Listing) : List String :=
  (if item.price < 25000 then ["PriceVsBaseline"] else []) ++
  (if item.dom < 20 then ["LowDOM"] else []) ++
  (if item.miles < 50000 then ["LowMiles"] else []) ++
  (if item.dom > 45 then ["AgedInventory"] else [])

/-- `price_boost` (lines 291-293). -/
def price_boost (price : ℚ) : ℚ :=
  if price < 25000 then min 20 ((25000 - price) / 1000) else 0

/-- `score_val` (line 300): `int(max(0, min(100, base + price_boost)))`. -/
def score_val (item : Listing) : Int :=
  pyInt (max 0 (min 100
    (40 * dom_penalty item.dom + 40 * miles_penalty item.miles +
      price_boost item.price)))

/-- Unrounded `buy_max` (lines 301-305): `max(0.0, price * 1.03)`, replaced by
`price * 0.98` when `dom > 45`. -/
def buy_max_raw (item : Listing) : ℚ :=
  if item.dom > 45 then item.price * 0.98 else max 0 (item.price * 1.03)

/-- The pure part of one scoring iteration: the `ScoreResponse` built at line
332 of `app.py` (VIN echoed verbatim, `buy_max` rounded to two decimals,
reason codes defaulting to `["Heuristic"]`). -/
def scoreOne (item : Listing) : ScoreResponse :=
  { vin := item.vin
    score := score_val item
    buyMax := round2 (buy_max_raw item)
    reasonCodes :=
      if scoreReasons item = [] then ["Heuristic"] else scoreReasons item }

/-- The field update performed on a matched stored listing
(lines 327-329 of `app.py`). -/
def setScoreFields (st : StoredListing) (r : ScoreResponse) : StoredListing :=
  { st with
    score := some r.score
    buyMax := some r.buyMax
    reasonCodes := r.reasonCodes }

/-- One iteration of the persist loop at lines 324-330: look up the id, and if
a listing is present overwrite its score fields. -/
def updOne (r : ScoreResponse) (m : List (String × StoredListing))
    (lid : String) : List (String × StoredListing) :=
  match alistGet lid m with
  | none => m
  | some st => alistSet lid (setScoreFields st r) m

/-- The whole persist loop over the ids indexed under the canonical VIN. -/
def updAll (r : ScoreResponse) (ids : List String)
    (m : List (String × StoredListing)) : List (String × StoredListing) :=
  ids.foldl (updOne r) m

/-- One iteration of the `/score` loop (lines 283-332), memory backend:
compute the response and write it onto every stored listing matching the
canonicalized VIN. -/
def scoreStep (s : Store) (item : Listing) : Store × ScoreResponse :=
  let r := scoreOne item
  let ids := (alistGet (canonVin item.vin) s.idsByVin).getD []
  ({ s with byId := updAll r ids s.byId }, r)

/-- The `/score` endpoint, memory backend: score a batch sequentially. -/
def score (s : Store) : List Listing → Store × List ScoreResponse
  | [] => (s, [])
  | item :: rest =>
    let r := scoreStep s item
    let rr := score r.1 rest
    (rr.1, r.2 :: rr.2)

/-- An external operation against the memory backend: one `/ingest` or one
`/score` request. -/
inductive Op where
  | ing : List StoredListing → Op
  | sc : List Listing → Op
deriving DecidableEq, Repr

/-- Run one operation against the store. -/
def applyOp (s : Store) : Op → Store
  | Op.ing items => (ingest s items).1
  | Op.sc items => (score s items).1

/-- Run a sequence of requests starting from the empty store. -/
def runOps (ops : List Op) : Store := ops.foldl applyOp emptyStore

/-- `v2` differs from `v1` only in letter case and/or surrounding whitespace:
both are a (possibly empty) whitespace padding around cores that agree up to
letter case. -/
def CaseWsVariant (v1 v2 : PyStr) : Prop :=
  ∃ p1 c1 q1 p2 c2 q2 : PyStr,
    v1 = p1 ++ c1 ++ q1 ∧ v2 = p2 ++ c2 ++ q2 ∧
    (∀ x ∈ p1, isWsCh x) ∧ (∀ x ∈ q1, isWsCh x) ∧
    (∀ x ∈ p2, isWsCh x) ∧ (∀ x ∈ q2, isWsCh x) ∧
    c1.map upperCh = c2.map upperCh

/-- Spec formula for the score, exactly as claim C1 words it: `base` plus
`priceBoost`, clamped into `[0,100]`, rounded to the NEAREST integer. -/
def specScoreRounded (price : ℚ) (miles dom : Int) : Int :=
  pyRoundNearestEven (max 0 (min 100
    (40 * ((max 0 (30 - dom) : Int) : ℚ) / 30 +
     40 * ((max 0 (100000 - miles) : Int) : ℚ) / 100000 +
     (if price < 25000 then min 20 ((25000 - price) / 1000) else 0))))

/-- Spec formula for the score as amended: the clamped value is truncated
toward zero (Python `int()`), not rounded to nearest. -/
def specScoreTruncated (price : ℚ) (miles dom : Int) : Int :=
  pyInt (max 0 (min 100
    (40 * ((max 0 (30 - dom) : Int) : ℚ) / 30 +
     40 * ((max 0 (100000 - miles) : Int) : ℚ) / 100000 +
     (if price < 25000 then min 20 ((25000 - price) / 1000) else 0))))

/-- A raw listing that carries no scoring output yet (the default field
values of `StoredListing`). -/
def unscored (it : StoredListing) : Prop :=
  it.score = none ∧ it.buyMax = none ∧ it.reasonCodes = []

instance : DecidablePred unscored := fun it =>
  inferInstanceAs
    (Decidable (it.score = none ∧ it.buyMax = none ∧ it.reasonCodes = []))

/-- The spec invariant of claim C8: scoring fields all unset, or all set. -/
def ScoreFieldsConsistent (st : StoredListing) : Prop :=
  (st.score = none ∧ st.buyMax = none ∧ st.reasonCodes = []) ∨
  (st.score ≠ none ∧ st.buyMax ≠ none ∧ st.reasonCodes ≠ [])

instance : DecidablePred ScoreFieldsConsistent := fun st =>
  inferInstanceAs
    (Decidable ((st.score = none ∧ st.buyMax = none ∧ st.reasonCodes = []) ∨
      (st.score ≠ none ∧ st.buyMax ≠ none ∧ st.reasonCodes ≠ [])))

/-- An operation whose ingested items (if any) carry no scoring output. -/
def ingestsUnscored : Op → Prop
  | Op.ing items => ∀ it ∈ items, unscored it
  | Op.sc _ => True

instance : DecidablePred ingestsUnscored := fun op =>
  match op with
  | Op.ing items => inferInstanceAs (Decidable (∀ it ∈ items, unscored it))
  | Op.sc _ => inferInstanceAs (Decidable True)

/-- Each creation timestamp is no smaller than the next one. -/
def newestFirstB : List StoredListing → Bool
  | [] => true
  | a :: rest =>
    match rest with
    | [] => true
    | b :: _ => decide (b.created_at ≤ a.created_at) && newestFirstB rest

/-- A list of listings ordered newest-created-first, as claim C5 words it:
the creation timestamps are nonincreasing along the list. -/
def NewestFirst (l : List StoredListing) : Prop := newestFirstB l = true

instance : DecidablePred NewestFirst := fun l =>
  inferInstanceAs (Decidable (newestFirstB l = true))

/-- The keys of an association list are pairwise distinct.  This holds for
every store reachable from the empty store (Python dict keys are unique). -/
def KeysNodup {α β : Type} (m : List (α × β)) : Prop := (m.map Prod.fst).Nodup

/-- Pointwise form of the persist loop on one stored entry: entries whose key
is among `ids` receive the score fields, others are untouched. -/
def pointUpd (r : ScoreResponse) (ids : List String)
    (p : String × StoredListing) : String × StoredListing :=
  if p.1 ∈ ids then (p.1, setScoreFields p.2 r) else p

/-! ### String-level lemmas: strip, upper, canonical VINs -/

theorem isWsCh_upperCh (n : Nat) : isWsCh (upperCh n) = isWsCh n := by
  unfold upperCh isWsCh
  split
  · next h =>
    have h32 : ¬(n - 32 = 32 ∨ n - 32 = 9 ∨ n - 32 = 10 ∨ n - 32 = 13 ∨
        n - 32 = 11 ∨ n - 32 = 12) := by omega
    have hn : ¬(n = 32 ∨ n = 9 ∨ n = 10 ∨ n = 13 ∨ n = 11 ∨ n = 12) := by omega
    simp only [Bool.or_eq_true, beq_iff_eq] at *
    rw [Bool.eq_iff_iff]
    simp only [Bool.or_eq_true, beq_iff_eq]
    tauto
  · rfl

theorem upperCh_upperCh (n : Nat) : upperCh (upperCh n) = upperCh n := by
  unfold upperCh
  split_ifs <;> omega

theorem lstripS_pyUpper (l : PyStr) : lstripS (pyUpper l) = pyUpper (lstripS l) := by
  unfold lstripS pyUpper
  rw [List.dropWhile_map]
  have : (isWsCh ∘ upperCh) = isWsCh := funext isWsCh_upperCh
  rw [this]

theorem rstripS_pyUpper (l : PyStr) : rstripS (pyUpper l) = pyUpper (rstripS l) := by
  unfold rstripS pyUpper List.rdropWhile
  rw [← List.map_reverse, List.dropWhile_map]
  have : (isWsCh ∘ upperCh) = isWsCh := funext isWsCh_upperCh
  rw [this, List.map_reverse]

theorem pyStrip_pyUpper (l : PyStr) : pyStrip (pyUpper l) = pyUpper (pyStrip l) := by
  unfold pyStrip
  rw [lstripS_pyUpper, rstripS_pyUpper]

theorem lstripS_idem (l : PyStr) : lstripS (lstripS l) = lstripS l :=
  List.dropWhile_idempotent isWsCh l

theorem rstripS_idem (l : PyStr) : rstripS (rstripS l) = rstripS l :=
  List.rdropWhile_idempotent isWsCh l

theorem lstripS_rstripS_of_lstripped (l : PyStr) (h : lstripS l = l) :
    lstripS (rstripS l) = rstripS l := by
  unfold lstripS rstripS at *
  rw [List.dropWhile_eq_self_iff]
  intro hl
  have hpre : l.rdropWhile isWsCh <+: l := List.rdropWhile_prefix isWsCh l
  have hl0 : 0 < l.length := lt_of_lt_of_le hl (hpre.sublist.length_le)
  have hhead : (l.rdropWhile isWsCh).get ⟨0, hl⟩ = l.get ⟨0, hl0⟩ := by
    simpa using hpre.getElem hl
  rw [hhead]
  exact (List.dropWhile_eq_self_iff.mp h) hl0

theorem pyStrip_idem (l : PyStr) : pyStrip (pyStrip l) = pyStrip l := by
  unfold pyStrip
  rw [lstripS_rstripS_of_lstripped (lstripS l) (lstripS_idem l), rstripS_idem]

theorem lstripS_ws_prefix (p l : PyStr) (hp : ∀ x ∈ p, isWsCh x) :
    lstripS (p ++ l) = lstripS l := by
  unfold lstripS
  exact List.dropWhile_append_of_pos hp

theorem rstripS_ws_suffix (l q : PyStr) (hq : ∀ x ∈ q, isWsCh x) :
    rstripS (l ++ q) = rstripS l := by
  unfold rstripS List.rdropWhile
  rw [List.reverse_append, List.dropWhile_append_of_pos]
  intro x hx
  exact hq x (List.mem_reverse.mp hx)

theorem pyStrip_pad (p c q : PyStr) (hp : ∀ x ∈ p, isWsCh x)
    (hq : ∀ x ∈ q, isWsCh x) : pyStrip (p ++ c ++ q) = pyStrip c := by
  unfold pyStrip
  rw [List.append_assoc, lstripS_ws_prefix p (c ++ q) hp]
  by_cases hc : lstripS c = []
  · have hcq : lstripS (c ++ q) = lstripS q := by
      unfold lstripS at *
      rw [List.dropWhile_append, hc]
      simp
    rw [hcq, hc]
    have hq' : lstripS q = [] := by
      unfold lstripS
      rw [List.dropWhile_eq_nil_iff]
      exact hq
    rw [hq']
  · have hcq : lstripS (c ++ q) = lstripS c ++ q := by
      unfold lstripS at *
      rw [List.dropWhile_append]
      simp [hc]
    rw [hcq, rstripS_ws_suffix _ q hq]

theorem canonVin_of_caseWsVariant {v1 v2 : PyStr} (h : CaseWsVariant v1 v2) :
    canonVin v1 = canonVin v2 := by
  obtain ⟨p1, c1, q1, p2, c2, q2, h1, h2, hp1, hq1, hp2, hq2, hcore⟩ := h
  unfold canonVin
  rw [h1, h2, pyStrip_pad p1 c1 q1 hp1 hq1, pyStrip_pad p2 c2 q2 hp2 hq2,
    ← pyStrip_pyUpper, ← pyStrip_pyUpper]
  unfold pyUpper at *
  rw [hcore]

theorem canonVin_idem (v : PyStr) : canonVin (canonVin v) = canonVin v := by
  unfold canonVin
  rw [pyStrip_pyUpper (pyStrip v), pyStrip_idem]
  unfold pyUpper
  rw [List.map_map]
  have h : (upperCh ∘ upperCh) = upperCh := funext upperCh_upperCh
  rw [h]

/-! ### Association-list lemmas (Python dict model) -/

section Alist

variable {α β : Type} [DecidableEq α]

theorem alistGet_alistSet_self (k : α) (v : β) (m : List (α × β)) :
    alistGet k (alistSet k v m) = some v := by
  induction m with
  | nil => simp [alistGet, alistSet]
  | cons p rest ih =>
    unfold alistSet
    by_cases h : p.1 = k
    · simp only [h, if_pos rfl]
      simp [alistGet]
    · simp only [if_neg h]
      simp [alistGet, h, ih]

theorem alistGet_alistSet_ne (k k' : α) (v : β) (m : List (α × β))
    (h : k' ≠ k) : alistGet k' (alistSet k v m) = alistGet k' m := by
  have hkk : ¬(k = k') := fun hh => h hh.symm
  induction m with
  | nil => simp [alistGet, alistSet, hkk]
  | cons p rest ih =>
    unfold alistSet
    by_cases hp : p.1 = k
    · rw [if_pos hp]
      unfold alistGet
      simp only [hp, if_neg hkk]
    · rw [if_neg hp]
      unfold alistGet
      by_cases hk : p.1 = k'
      · rw [if_pos hk, if_pos hk]
      · rw [if_neg hk, if_neg hk, ih]

theorem alistGet_eq_none_iff (k : α) (m : List (α × β)) :
    alistGet k m = none ↔ k ∉ m.map Prod.fst := by
  induction m with
  | nil => simp [alistGet]
  | cons p rest ih =>
    unfold alistGet
    by_cases hp : p.1 = k
    · simp [hp]
    · rw [if_neg hp]
      simp only [List.map_cons, List.mem_cons]
      rw [ih]
      constructor
      · intro hnot hmem
        rcases hmem with h1 | h2
        · exact hp h1.symm
        · exact hnot h2
      · intro hnot h2
        exact hnot (Or.inr h2)

theorem mem_snd_alistSet (k : α) (v x : β) (m : List (α × β))
    (h : x ∈ (alistSet k v m).map Prod.snd) :
    x = v ∨ x ∈ m.map Prod.snd := by
  induction m with
  | nil => simpa [alistSet] using h
  | cons p rest ih =>
    unfold alistSet at h
    by_cases hp : p.1 = k
    · simp only [hp, if_pos rfl] at h
      rcases List.mem_map.mp h with ⟨q, hq, hxq⟩
      rcases List.mem_cons.mp hq with hq1 | hq2
      · left; rw [hq1] at hxq; exact hxq.symm
      · right; exact List.mem_map.mpr ⟨q, List.mem_cons_of_mem _ hq2, hxq⟩
    · simp only [if_neg hp] at h
      rcases List.mem_map.mp h with ⟨q, hq, hxq⟩
      rcases List.mem_cons.mp hq with hq1 | hq2
      · right
        exact List.mem_map.mpr ⟨q, by simp [hq1], hxq⟩
      · rcases ih (List.mem_map.mpr ⟨q, hq2, hxq⟩) with hl | hr
        · left; exact hl
        · right
          rcases List.mem_map.mp hr with ⟨q', hq', hxq'⟩
          exact List.mem_map.mpr ⟨q', List.mem_cons_of_mem _ hq', hxq'⟩

theorem alistSet_of_not_mem_keys (k : α) (v : β) (m : List (α × β))
    (h : k ∉ m.map Prod.fst) : alistSet k v m = m ++ [(k, v)] := by
  induction m with
  | nil => simp [alistSet]
  | cons p rest ih =>
    simp only [List.map_cons, List.mem_cons] at h
    push_neg at h
    unfold alistSet
    rw [if_neg (fun hh => h.1 hh.symm)]
    simp [ih h.2]

theorem keys_alistSet_of_mem (k : α) (v : β) (m : List (α × β))
    (h : k ∈ m.map Prod.fst) :
    (alistSet k v m).map Prod.fst = m.map Prod.fst := by
  induction m with
  | nil => simp at h
  | cons p rest ih =>
    unfold alistSet
    by_cases hp : p.1 = k
    · simp [hp]
    · simp only [List.map_cons, List.mem_cons] at h
      rcases h with h1 | h2
      · exact absurd h1.symm hp
      · simp [hp, ih h2]

theorem keysNodup_alistSet (k : α) (v : β) (m : List (α × β))
    (h : KeysNodup m) : KeysNodup (alistSet k v m) := by
  unfold KeysNodup at *
  by_cases hk : k ∈ m.map Prod.fst
  · rw [keys_alistSet_of_mem k v m hk]; exact h
  · rw [alistSet_of_not_mem_keys k v m hk]
    simp only [List.map_append, List.map_cons, List.map_nil]
    refine List.Nodup.append h (List.nodup_singleton k) ?_
    intro a ha hb
    rcases List.mem_singleton.mp hb with rfl
    exact hk ha

end Alist

/-! ### Lemmas about the persist loop of the scoring pass -/

theorem setScoreFields_idem (st : StoredListing) (r : ScoreResponse) :
    setScoreFields (setScoreFields st r) r = setScoreFields st r := rfl

theorem updOne_get_ne (r : ScoreResponse) (m : List (String × StoredListing))
    (lid k : String) (h : k ≠ lid) :
    alistGet k (updOne r m lid) = alistGet k m := by
  unfold updOne
  cases hg : alistGet lid m with
  | none => rfl
  | some st => exact alistGet_alistSet_ne lid k _ m h

theorem updOne_get_self (r : ScoreResponse) (m : List (String × StoredListing))
    (lid : String) :
    alistGet lid (updOne r m lid)
      = (alistGet lid m).map (fun st => setScoreFields st r) := by
  unfold updOne
  cases hg : alistGet lid m with
  | none => simp [hg]
  | some st => simp [alistGet_alistSet_self]

theorem updAll_nil (r : ScoreResponse) (m : List (String × StoredListing)) :
    updAll r [] m = m := rfl

theorem updAll_cons (r : ScoreResponse) (lid : String) (rest : List String)
    (m : List (String × StoredListing)) :
    updAll r (lid :: rest) m = updAll r rest (updOne r m lid) := rfl

theorem updAll_get_not_mem (r : ScoreResponse) (ids : List String)
    (m : List (String × StoredListing)) (k : String) (h : k ∉ ids) :
    alistGet k (updAll r ids m) = alistGet k m := by
  induction ids generalizing m with
  | nil => rfl
  | cons lid rest ih =>
    simp only [List.mem_cons] at h
    push_neg at h
    rw [updAll_cons, ih (updOne r m lid) h.2, updOne_get_ne r m lid k h.1]

theorem updAll_get_mem (r : ScoreResponse) (ids : List String)
    (m : List (String × StoredListing)) (k : String) (h : k ∈ ids) :
    alistGet k (updAll r ids m)
      = (alistGet k m).map (fun st => setScoreFields st r) := by
  induction ids generalizing m with
  | nil => simp at h
  | cons lid rest ih =>
    rw [updAll_cons]
    by_cases hk : k = lid
    · subst hk
      by_cases hr : k ∈ rest
      · rw [ih (updOne r m k) hr, updOne_get_self, Option.map_map]
        cases alistGet k m <;> rfl
      · rw [updAll_get_not_mem r rest _ k hr, updOne_get_self]
    · rcases List.mem_cons.mp h with h1 | h2
      · exact absurd h1 hk
      · rw [ih (updOne r m lid) h2, updOne_get_ne r m lid k hk]

theorem mem_snd_updOne (r : ScoreResponse) (m : List (String × StoredListing))
    (lid : String) (x : StoredListing)
    (h : x ∈ (updOne r m lid).map Prod.snd) :
    x ∈ m.map Prod.snd ∨ ∃ st, x = setScoreFields st r := by
  unfold updOne at h
  cases hg : alistGet lid m with
  | none => rw [hg] at h; exact Or.inl h
  | some st =>
    rw [hg] at h
    rcases mem_snd_alistSet lid (setScoreFields st r) x m h with h1 | h2
    · exact Or.inr ⟨st, h1⟩
    · exact Or.inl h2

theorem mem_snd_updAll (r : ScoreResponse) (ids : List String)
    (m : List (String × StoredListing)) (x : StoredListing)
    (h : x ∈ (updAll r ids m).map Prod.snd) :
    x ∈ m.map Prod.snd ∨ ∃ st, x = setScoreFields st r := by
  induction ids generalizing m with
  | nil => exact Or.inl h
  | cons lid rest ih =>
    rw [updAll_cons] at h
    rcases ih (updOne r m lid) h with h1 | h2
    · exact mem_snd_updOne r m lid x h1
    · exact Or.inr h2

theorem pointUpd_fst (r : ScoreResponse) (ids : List String)
    (p : String × StoredListing) : (pointUpd r ids p).1 = p.1 := by
  unfold pointUpd
  split <;> rfl

theorem map_pointUpd_id (r : ScoreResponse) (ids : List String)
    (m : List (String × StoredListing)) (h : ∀ q ∈ m, q.1 ∉ ids) :
    m.map (pointUpd r ids) = m := by
  induction m with
  | nil => rfl
  | cons p rest ih =>
    simp only [List.map_cons]
    rw [ih (fun q hq => h q (List.mem_cons_of_mem _ hq))]
    unfold pointUpd
    rw [if_neg (h p (List.mem_cons_self _ _))]

theorem updOne_eq_map (r : ScoreResponse) (lid : String)
    (m : List (String × StoredListing)) (h : KeysNodup m) :
    updOne r m lid = m.map (pointUpd r [lid]) := by
  induction m with
  | nil => rfl
  | cons p rest ih =>
    unfold KeysNodup at h
    simp only [List.map_cons, List.nodup_cons] at h
    obtain ⟨hp1, hnd⟩ := h
    by_cases hp : p.1 = lid
    · have hg : alistGet lid (p :: rest) = some p.2 := by
        unfold alistGet
        rw [if_pos hp]
      unfold updOne
      rw [hg]
      unfold alistSet
      rw [if_pos hp]
      simp only [List.map_cons]
      have hrest : rest.map (pointUpd r [lid]) = rest := by
        apply map_pointUpd_id
        intro q hq hmem
        rw [List.mem_singleton] at hmem
        apply hp1
        have hpq : p.1 = q.1 := by rw [hp, ← hmem]
        rw [hpq]
        exact List.mem_map_of_mem Prod.fst hq
      rw [hrest]
      unfold pointUpd
      simp [hp]
    · cases hg0 : alistGet lid rest with
      | none =>
        have hg : alistGet lid (p :: rest) = none := by
          unfold alistGet
          rw [if_neg hp]
          exact hg0
        unfold updOne
        rw [hg]
        have hrest : rest.map (pointUpd r [lid]) = rest := by
          apply map_pointUpd_id
          intro q hq hmem
          rw [List.mem_singleton] at hmem
          have hnk : lid ∉ rest.map Prod.fst := (alistGet_eq_none_iff lid rest).mp hg0
          exact hnk (hmem ▸ List.mem_map_of_mem Prod.fst hq)
        have hhead : pointUpd r [lid] p = p := by
          unfold pointUpd
          simp [hp]
        simp only [List.map_cons, hrest, hhead]
      | some st =>
        have hg : alistGet lid (p :: rest) = some st := by
          unfold alistGet
          rw [if_neg hp]
          exact hg0
        unfold updOne
        rw [hg]
        unfold alistSet
        rw [if_neg hp]
        have hrest := ih hnd
        unfold updOne at hrest
        rw [hg0] at hrest
        have hhead : pointUpd r [lid] p = p := by
          unfold pointUpd
          simp [hp]
        simp only [List.map_cons, hhead, ← hrest]

theorem pointUpd_comp (r : ScoreResponse) (lid : String) (rest : List String)
    (p : String × StoredListing) :
    pointUpd r rest (pointUpd r [lid] p) = pointUpd r (lid :: rest) p := by
  unfold pointUpd
  by_cases h1 : p.1 = lid
  · by_cases h2 : p.1 ∈ rest
    · have h2' : lid ∈ rest := h1 ▸ h2
      simp [h1, h2', setScoreFields_idem]
    · have h2' : lid ∉ rest := fun hc => h2 (h1 ▸ hc)
      simp [h1, h2']
  · by_cases h2 : p.1 ∈ rest
    · simp [h1, h2]
    · simp [h1, h2]

theorem keys_map_pointUpd (r : ScoreResponse) (ids : List String)
    (m : List (String × StoredListing)) :
    (m.map (pointUpd r ids)).map Prod.fst = m.map Prod.fst := by
  rw [List.map_map]
  apply List.map_congr_left
  intro q hq
  exact pointUpd_fst r ids q

theorem updAll_eq_map (r : ScoreResponse) (ids : List String)
    (m : List (String × StoredListing)) (h : KeysNodup m) :
    updAll r ids m = m.map (pointUpd r ids) := by
  induction ids generalizing m with
  | nil =>
    rw [updAll_nil]
    symm
    apply map_pointUpd_id
    intro q hq hmem
    simp at hmem
  | cons lid rest ih =>
    rw [updAll_cons, updOne_eq_map r lid m h]
    have hnd : KeysNodup (m.map (pointUpd r [lid])) := by
      unfold KeysNodup
      rw [keys_map_pointUpd]
      exact h
    rw [ih _ hnd, List.map_map]
    apply List.map_congr_left
    intro q hq
    exact pointUpd_comp r lid rest q

theorem keysNodup_updAll (r : ScoreResponse) (ids : List String)
    (m : List (String × StoredListing)) (h : KeysNodup m) :
    KeysNodup (updAll r ids m) := by
  rw [updAll_eq_map r ids m h]
  unfold KeysNodup
  rw [keys_map_pointUpd]
  exact h

/-! ### Scoring-engine lemmas -/

theorem score_val_bounds (item : Listing) :
    0 ≤ score_val item ∧ score_val item ≤ 100 := by
  unfold score_val pyInt
  set y : ℚ := max 0 (min 100
    (40 * dom_penalty item.dom + 40 * miles_penalty item.miles +
      price_boost item.price)) with hy
  have h0 : (0 : ℚ) ≤ y := le_max_left 0 _
  have h100 : y ≤ 100 := max_le (by norm_num) (min_le_left 100 _)
  rw [if_pos h0]
  constructor
  · exact Int.le_floor.mpr (by exact_mod_cast h0)
  · have := Int.floor_le_floor h100
    simpa using this

theorem scoreOne_reasonCodes_ne_nil (item : Listing) :
    (scoreOne item).reasonCodes ≠ [] := by
  unfold scoreOne
  by_cases h : scoreReasons item = []
  · simp [h]
  · simp [h]

theorem scoreOne_score_eq_truncated (item : Listing) :
    (scoreOne item).score
      = specScoreTruncated item.price item.miles item.dom := by
  unfold scoreOne score_val specScoreTruncated dom_penalty miles_penalty
    price_boost
  rw [mul_div_assoc, mul_div_assoc]

/-- Claim C1, counterexample to the rounding mode: at
`price=20000, miles=30000, dom=10` the clamped heuristic value is
`179/3 ≈ 59.67`; the code truncates it to 59, while the claimed
round-to-nearest formula yields 60. -/
theorem score_rounding_cex :
    (scoreOne { vin := [86, 73, 78], price := 20000, miles := 30000, dom := 10 }).score = 59 ∧
    specScoreRounded 20000 30000 10 = 60 ∧ (59 : Int) ≠ 60 := by
  refine ⟨?_, ?_, by decide⟩
  · simp only [scoreOne, score_val, price_boost, dom_penalty, miles_penalty,
      pyInt]
    norm_num
  · simp only [specScoreRounded, pyRoundNearestEven]
    norm_num

/-- Claim C1 as amended: for every scored listing fact the returned score is
the clamp of `base + priceBoost` into `[0,100]` TRUNCATED toward zero
(Python `int()`), not rounded to nearest; in particular it lies in
`[0,100]`. -/
theorem score_formula_and_bounds (item : Listing) :
    (scoreOne item).score = specScoreTruncated item.price item.miles item.dom ∧
    0 ≤ (scoreOne item).score ∧ (scoreOne item).score ≤ 100 :=
  ⟨scoreOne_score_eq_truncated item, (score_val_bounds item).1,
    (score_val_bounds item).2⟩

/-- Claim C2: on price 20000, miles 30000, dom 10, the scoring operation
returns score 59, buyMax 20600.00, and exactly the reason codes
PriceVsBaseline, LowDOM, LowMiles in that order (the response is
independent of the store, and `scoreStep` returns `scoreOne` verbatim). -/
theorem score_example_c2 :
    scoreOne { vin := [86, 73, 78], price := 20000, miles := 30000, dom := 10 }
      = { vin := [86, 73, 78], score := 59, buyMax := 20600,
          reasonCodes := ["PriceVsBaseline", "LowDOM", "LowMiles"] } := by
  simp only [scoreOne, score_val, buy_max_raw, scoreReasons, price_boost,
    dom_penalty, miles_penalty, pyInt, round2, pyRoundNearestEven,
    ScoreResponse.mk.injEq]
  norm_num
  simp

/-- Claim C6: when `dom > 45` the buyMax is `price * 0.98` (rounded to two
decimals) with reason code AgedInventory and without the 1.03 multiplier;
otherwise it is `max 0 (price * 1.03)` rounded to two decimals; and every
value persisted by the scoring pass equals the rounded response value. -/
theorem buyMax_policy (item : Listing) (s : Store) :
    (item.dom > 45 →
      (scoreOne item).buyMax = round2 (item.price * 0.98) ∧
      "AgedInventory" ∈ (scoreOne item).reasonCodes) ∧
    (¬item.dom > 45 →
      (scoreOne item).buyMax = round2 (max 0 (item.price * 1.03))) ∧
    (∀ lid st, alistGet lid (scoreStep s item).1.byId = some st →
      st.buyMax = some (scoreOne item).buyMax ∨ alistGet lid s.byId = some st) := by
  refine ⟨?_, ?_, ?_⟩
  · intro h
    have hne : scoreReasons item ≠ [] := by
      unfold scoreReasons
      rw [if_pos h]
      intro hc
      rcases List.append_eq_nil.mp hc with ⟨h1, h2⟩
      exact List.cons_ne_nil _ _ h2
    constructor
    · unfold scoreOne buy_max_raw
      rw [if_pos h]
    · unfold scoreOne
      simp only [if_neg hne]
      unfold scoreReasons
      rw [if_pos h]
      simp
  · intro h
    unfold scoreOne buy_max_raw
    rw [if_neg h]
  · intro lid st hget
    have hbyId : (scoreStep s item).1.byId
        = updAll (scoreOne item)
            ((alistGet (canonVin item.vin) s.idsByVin).getD []) s.byId := rfl
    rw [hbyId] at hget
    by_cases hmem : lid ∈ (alistGet (canonVin item.vin) s.idsByVin).getD []
    · rw [updAll_get_mem _ _ _ _ hmem] at hget
      cases hold : alistGet lid s.byId with
      | none => rw [hold] at hget; simp at hget
      | some old =>
        rw [hold] at hget
        have hget' : some (setScoreFields old (scoreOne item)) = some st := hget
        left
        rw [← Option.some_inj.mp hget']
        rfl
    · rw [updAll_get_not_mem _ _ _ _ hmem] at hget
      exact Or.inr hget

/-- Witness for `buyMax_policy` at dom 50, price 10000 (the spec's
aged-inventory test vector). -/
theorem buyMax_policy_witness :
    ((50 : Int) > 45) ∧
    (scoreOne { vin := [], price := 10000, miles := 1000, dom := 50 }).buyMax
      = round2 ((10000 : ℚ) * 0.98) ∧
    "AgedInventory" ∈
      (scoreOne { vin := [], price := 10000, miles := 1000, dom := 50 }).reasonCodes := by
  have h := (buyMax_policy { vin := [], price := 10000, miles := 1000, dom := 50 }
    emptyStore).1 (by norm_num)
  exact ⟨by norm_num, h.1, h.2⟩

/-- Claim C4, counterexample: a caller-supplied negative radius (-5) is not
falsy, passes through normalization unchanged, and is stored negative — the
stored radius is not positive. -/
theorem radius_positive_cex :
    (list_listings (runOps [Op.ing [{ id := "L1", vin := [88, 49], year := 2020, make := [], model := [], miles := 10, price := 5, dom := 3, radius := some (-5) }]])).map StoredListing.radius
      = [some (-5)] ∧ ¬(0 < (-5 : Int)) := by
  constructor
  · rfl
  · decide

/-- Claim C4 as amended: an absent or zero radius is defaulted to 25; any
other value — including a negative one — passes through unchanged; the
stored radius is positive whenever the supplied radius is absent or
nonnegative. -/
theorem radius_normalization (item : StoredListing) :
    ((item.radius = none ∨ item.radius = some 0) →
      (normalize item).radius = some 25) ∧
    (¬(item.radius = none ∨ item.radius = some 0) →
      (normalize item).radius = item.radius) ∧
    ((item.radius = none ∨ ∃ k, item.radius = some k ∧ 0 ≤ k) →
      ∃ m, (normalize item).radius = some m ∧ 0 < m) := by
  have hrad : (normalize item).radius
      = if item.radius = none ∨ item.radius = some 0 then some 25
        else item.radius := rfl
  refine ⟨?_, ?_, ?_⟩
  · intro h
    rw [hrad, if_pos h]
  · intro h
    rw [hrad, if_neg h]
  · intro h
    rcases h with h | ⟨k, hk, hk0⟩
    · exact ⟨25, by rw [hrad, if_pos (Or.inl h)], by norm_num⟩
    · by_cases hz : k = 0
      · subst hz
        exact ⟨25, by rw [hrad, if_pos (Or.inr hk)], by norm_num⟩
      · refine ⟨k, ?_, by omega⟩
        rw [hrad, if_neg ?_, hk]
        intro hc
        rcases hc with hc | hc
        · rw [hk] at hc; exact Option.noConfusion hc
        · rw [hk] at hc
          exact hz (Option.some_inj.mp hc)

/-- Witness for `radius_normalization`: radius 0 is defaulted to 25. -/
theorem radius_normalization_witness :
    (normalize { id := "L2", vin := [88], year := 2021, make := [], model := [], miles := 1, price := 1, dom := 1, radius := some 0 }).radius = some 25 := by
  exact (radius_normalization _).1 (Or.inr rfl)

/-- Claim C9: the normalizer is idempotent. -/
theorem normalize_idempotent (item : StoredListing) :
    normalize (normalize item) = normalize item := by
  have hvin := canonVin_idem item.vin
  unfold canonVin at hvin
  have h1 : ∀ x : StoredListing, (normalize x).radius
      = if x.radius = none ∨ x.radius = some 0 then some 25 else x.radius :=
    fun x => rfl
  have hrad2 : (normalize (normalize item)).radius = (normalize item).radius := by
    rw [h1 (normalize item), h1 item]
    by_cases h : item.radius = none ∨ item.radius = some 0
    · rw [if_pos h]
      simp
    · rw [if_neg h, if_neg h]
  apply StoredListing.ext
  · rfl
  · exact hvin
  · rfl
  · exact pyStrip_idem item.make
  · exact pyStrip_idem item.model
  · show Option.map pyStrip (Option.map pyStrip item.trim)
      = Option.map pyStrip item.trim
    cases item.trim with
    | none => rfl
    | some t => simp [pyStrip_idem]
  · rfl
  · rfl
  · rfl
  · rfl
  · rfl
  · exact hrad2
  · rfl
  · rfl
  · rfl

theorem mem_vinIndexAdd (vin : PyStr) (id : String)
    (idx : List (PyStr × List String)) :
    id ∈ (alistGet vin (vinIndexAdd vin id idx)).getD [] := by
  unfold vinIndexAdd
  cases hg : alistGet vin idx with
  | none =>
    show id ∈ (alistGet vin (alistSet vin [id] idx)).getD []
    rw [alistGet_alistSet_self]
    simp
  | some l =>
    show id ∈
      (alistGet vin (if id ∈ l then idx else alistSet vin (l ++ [id]) idx)).getD []
    by_cases hm : id ∈ l
    · rw [if_pos hm, hg]
      simpa using hm
    · rw [if_neg hm, alistGet_alistSet_self]
      simp

/-- Claim C3: after ingesting a raw listing, a scoring call whose VIN differs
from the raw VIN only in letter case and/or surrounding whitespace locates
the stored listing and overwrites its score, buyMax, and reasonCodes with
the computed response. -/
theorem vin_linkage (s : Store) (raw : StoredListing) (fact : Listing)
    (h : CaseWsVariant raw.vin fact.vin) :
    alistGet (normalize raw).id (scoreStep (ingestOne s raw).1 fact).1.byId
      = some (setScoreFields (normalize raw) (scoreOne fact)) := by
  have hcanon : canonVin fact.vin = (normalize raw).vin := by
    have h2 := canonVin_of_caseWsVariant h
    rw [← h2]
    rfl
  have hbyId : (scoreStep (ingestOne s raw).1 fact).1.byId
      = updAll (scoreOne fact)
          ((alistGet (canonVin fact.vin) (ingestOne s raw).1.idsByVin).getD [])
          (ingestOne s raw).1.byId := rfl
  rw [hbyId]
  have hidx : (ingestOne s raw).1.idsByVin
      = vinIndexAdd (normalize raw).vin (normalize raw).id s.idsByVin := rfl
  have hmem : (normalize raw).id
      ∈ (alistGet (canonVin fact.vin) (ingestOne s raw).1.idsByVin).getD [] := by
    rw [hidx, hcanon]
    exact mem_vinIndexAdd _ _ _
  rw [updAll_get_mem _ _ _ _ hmem]
  have hget : alistGet (normalize raw).id (ingestOne s raw).1.byId
      = some (normalize raw) := by
    show alistGet (normalize raw).id
        (alistSet (normalize raw).id (normalize raw) s.byId)
      = some (normalize raw)
    exact alistGet_alistSet_self _ _ _
  rw [hget]
  rfl

/-- Witness for `vin_linkage`: VIN `x1` is ingested, then VIN ` X1 ` (upper
case, padded with spaces) is scored; the stored listing is found and
updated. -/
theorem vin_linkage_witness :
    alistGet (normalize { id := "L1", vin := [120, 49], year := 2020, make := [], model := [], miles := 10, price := 5, dom := 3 }).id (scoreStep (ingestOne emptyStore { id := "L1", vin := [120, 49], year := 2020, make := [], model := [], miles := 10, price := 5, dom := 3 }).1 { vin := [32, 88, 49, 32], price := 5, miles := 10, dom := 3 }).1.byId
      = some (setScoreFields (normalize { id := "L1", vin := [120, 49], year := 2020, make := [], model := [], miles := 10, price := 5, dom := 3 }) (scoreOne { vin := [32, 88, 49, 32], price := 5, miles := 10, dom := 3 })) :=
  vin_linkage emptyStore _ _
    ⟨[], [120, 49], [], [32], [88, 49], [32], by decide, by decide, by decide,
      by decide, by decide, by decide, by decide⟩

/-- Claim C7: scoring a VIN with no stored listings leaves the store exactly
unchanged and still returns a valid response: score within `[0,100]` and a
non-empty reason-code list. -/
theorem score_unmatched_noop (s : Store) (fact : Listing)
    (h : (alistGet (canonVin fact.vin) s.idsByVin).getD [] = []) :
    (scoreStep s fact).1 = s ∧
    0 ≤ (scoreStep s fact).2.score ∧ (scoreStep s fact).2.score ≤ 100 ∧
    (scoreStep s fact).2.reasonCodes ≠ [] := by
  refine ⟨?_, ?_, ?_, ?_⟩
  · apply Store.ext
    · show updAll (scoreOne fact)
        ((alistGet (canonVin fact.vin) s.idsByVin).getD []) s.byId = s.byId
      rw [h]
      exact updAll_nil _ _
    · rfl
  · exact (score_val_bounds fact).1
  · exact (score_val_bounds fact).2
  · exact scoreOne_reasonCodes_ne_nil fact

/-- Witness for `score_unmatched_noop` on the empty store. -/
theorem score_unmatched_noop_witness :
    (scoreStep emptyStore { vin := [88], price := 1, miles := 1, dom := 1 }).1 = emptyStore ∧
    0 ≤ (scoreStep emptyStore { vin := [88], price := 1, miles := 1, dom := 1 }).2.score ∧
    (scoreStep emptyStore { vin := [88], price := 1, miles := 1, dom := 1 }).2.score ≤ 100 ∧
    (scoreStep emptyStore { vin := [88], price := 1, miles := 1, dom := 1 }).2.reasonCodes ≠ [] :=
  score_unmatched_noop emptyStore _ (by decide)

theorem normalize_id (item : StoredListing) : (normalize item).id = item.id := rfl

theorem ingest_fst (s : Store) (it : StoredListing) (rest : List StoredListing) :
    (ingest s (it :: rest)).1 = (ingest (ingestOne s it).1 rest).1 := rfl

theorem ingest_byId_append (items : List StoredListing) :
    ∀ s : Store, (∀ it ∈ items, it.id ∉ s.byId.map Prod.fst) →
    (items.map StoredListing.id).Nodup →
    (ingest s items).1.byId
      = s.byId ++ items.map (fun it => (it.id, normalize it)) := by
  induction items with
  | nil =>
    intro s _ _
    simp [ingest]
  | cons it rest ih =>
    intro s hfresh hnd
    have hit : it.id ∉ s.byId.map Prod.fst := hfresh it (List.mem_cons_self _ _)
    have hstep : (ingestOne s it).1.byId = s.byId ++ [(it.id, normalize it)] := by
      show alistSet (normalize it).id (normalize it) s.byId
        = s.byId ++ [(it.id, normalize it)]
      rw [normalize_id]
      exact alistSet_of_not_mem_keys _ _ _ hit
    simp only [List.map_cons, List.nodup_cons] at hnd
    obtain ⟨hnotin, hnd'⟩ := hnd
    have hfresh' : ∀ it2 ∈ rest, it2.id ∉ (ingestOne s it).1.byId.map Prod.fst := by
      intro it2 h2
      rw [hstep]
      simp only [List.map_append, List.map_cons, List.map_nil, List.mem_append,
        List.mem_singleton]
      intro hc
      rcases hc with hc | hc
      · exact hfresh it2 (List.mem_cons_of_mem _ h2) hc
      · exact hnotin (hc ▸ List.mem_map_of_mem StoredListing.id h2)
    rw [ingest_fst, ih (ingestOne s it).1 hfresh' hnd', hstep]
    simp [List.append_assoc]

/-- Claim C5, counterexample: on the memory backend, ingesting a listing
created at time 5 and then one created at time 9 makes the list operation
return them oldest-first, so the output is NOT ordered
newest-created-first. -/
theorem list_order_cex :
    ¬ NewestFirst (list_listings (runOps [Op.ing [{ id := "A", vin := [88], year := 2020, make := [], model := [], miles := 1, price := 1, dom := 1, created_at := 5 }, { id := "B", vin := [89], year := 2021, make := [], model := [], miles := 1, price := 1, dom := 1, created_at := 9 }]])) := by
  decide

/-- Claim C5 as amended: the memory backend returns the stored listings in
id-insertion order — ingesting a batch of fresh ids into the empty store
makes the list operation return exactly the normalized batch in input
order (oldest ingested first), not newest-created-first. -/
theorem list_insertion_order (items : List StoredListing)
    (hnd : (items.map StoredListing.id).Nodup) :
    list_listings (ingest emptyStore items).1 = items.map normalize := by
  unfold list_listings
  rw [ingest_byId_append items emptyStore
    (by intro it h hc; simp [emptyStore] at hc) hnd]
  simp only [emptyStore, List.nil_append, List.map_map]
  apply List.map_congr_left
  intro it hit
  rfl

/-- Witness for `list_insertion_order` on a concrete two-listing batch. -/
theorem list_insertion_order_witness :
    list_listings (ingest emptyStore [{ id := "A", vin := [88], year := 2020, make := [], model := [], miles := 1, price := 1, dom := 1, created_at := 5 }, { id := "B", vin := [89], year := 2021, make := [], model := [], miles := 1, price := 1, dom := 1, created_at := 9 }]).1
      = [{ id := "A", vin := [88], year := 2020, make := [], model := [], miles := 1, price := 1, dom := 1, created_at := 5 }, { id := "B", vin := [89], year := 2021, make := [], model := [], miles := 1, price := 1, dom := 1, created_at := 9 }].map normalize :=
  list_insertion_order _ (by decide)

theorem scoreFieldsConsistent_setScoreFields (st : StoredListing)
    (item : Listing) :
    ScoreFieldsConsistent (setScoreFields st (scoreOne item)) := by
  right
  refine ⟨?_, ?_, ?_⟩
  · show some (scoreOne item).score ≠ none
    simp
  · show some (scoreOne item).buyMax ≠ none
    simp
  · show (scoreOne item).reasonCodes ≠ []
    exact scoreOne_reasonCodes_ne_nil item

theorem invAll_ingest (items : List StoredListing) :
    ∀ s : Store, (∀ st ∈ s.byId.map Prod.snd, ScoreFieldsConsistent st) →
    (∀ it ∈ items, unscored it) →
    ∀ st ∈ (ingest s items).1.byId.map Prod.snd, ScoreFieldsConsistent st := by
  induction items with
  | nil =>
    intro s hs _ st hst
    exact hs st hst
  | cons it rest ih =>
    intro s hs huns st hst
    have hstep : ∀ st2 ∈ (ingestOne s it).1.byId.map Prod.snd,
        ScoreFieldsConsistent st2 := by
      intro st2 hst2
      rcases mem_snd_alistSet (normalize it).id (normalize it) st2 s.byId hst2
        with h1 | h2
      · rw [h1]
        left
        have hu := huns it (List.mem_cons_self _ _)
        exact ⟨hu.1, hu.2.1, hu.2.2⟩
      · exact hs st2 h2
    exact ih (ingestOne s it).1 hstep
      (fun it2 h2 => huns it2 (List.mem_cons_of_mem _ h2)) st hst

theorem invAll_score (items : List Listing) :
    ∀ s : Store, (∀ st ∈ s.byId.map Prod.snd, ScoreFieldsConsistent st) →
    ∀ st ∈ (score s items).1.byId.map Prod.snd, ScoreFieldsConsistent st := by
  induction items with
  | nil =>
    intro s hs st hst
    exact hs st hst
  | cons item rest ih =>
    intro s hs st hst
    have hstep : ∀ st2 ∈ (scoreStep s item).1.byId.map Prod.snd,
        ScoreFieldsConsistent st2 := by
      intro st2 hst2
      rcases mem_snd_updAll (scoreOne item) _ _ st2 hst2 with h1 | ⟨old, h2⟩
      · exact hs st2 h1
      · rw [h2]
        exact scoreFieldsConsistent_setScoreFields old item
    exact ih (scoreStep s item).1 hstep st hst

theorem invAll_foldl (ops : List Op) :
    ∀ s : Store, (∀ op ∈ ops, ingestsUnscored op) →
    (∀ st ∈ s.byId.map Prod.snd, ScoreFieldsConsistent st) →
    ∀ st ∈ (ops.foldl applyOp s).byId.map Prod.snd, ScoreFieldsConsistent st := by
  induction ops with
  | nil =>
    intro s _ hs st hst
    exact hs st hst
  | cons op rest ih =>
    intro s hops hs st hst
    have hop : ingestsUnscored op := hops op (List.mem_cons_self _ _)
    have hs' : ∀ st2 ∈ (applyOp s op).byId.map Prod.snd,
        ScoreFieldsConsistent st2 := by
      cases op with
      | ing items => exact invAll_ingest items s hs hop
      | sc items => exact invAll_score items s hs
    exact ih (applyOp s op)
      (fun op2 h2 => hops op2 (List.mem_cons_of_mem _ h2)) hs' st hst

/-- Claim C8, counterexample: the ingest endpoint accepts a raw listing that
already carries a score but no buyMax and no reason codes; normalization
does not touch those fields, so the stored listing violates the
all-unset-or-all-set invariant right after ingestion. -/
theorem scored_fields_cex :
    list_listings (runOps [Op.ing [{ id := "L1", vin := [88], year := 2020, make := [], model := [], miles := 1, price := 1, dom := 1, score := some 50 }]])
      = [normalize { id := "L1", vin := [88], year := 2020, make := [], model := [], miles := 1, price := 1, dom := 1, score := some 50 }] ∧
    ¬ ScoreFieldsConsistent (normalize { id := "L1", vin := [88], year := 2020, make := [], model := [], miles := 1, price := 1, dom := 1, score := some 50 }) := by
  constructor
  · rfl
  · decide

/-- Claim C8 as amended: provided every ingested raw listing arrives with no
score, no buyMax, and an empty reason-code list (the request defaults),
every stored listing — after any sequence of ingest and score requests —
has its reason codes and score/buyMax either all unset or all set. -/
theorem scored_fields_consistency (ops : List Op)
    (h : ∀ op ∈ ops, ingestsUnscored op) :
    ∀ st ∈ list_listings (runOps ops), ScoreFieldsConsistent st := by
  intro st hst
  exact invAll_foldl ops emptyStore h
    (by intro st2 hst2; simp [emptyStore] at hst2) st hst

/-- Witness for `scored_fields_consistency`: the single listing stored by a
concrete default-fields ingest satisfies the invariant. -/
theorem scored_fields_consistency_witness :
    ScoreFieldsConsistent (normalize { id := "G", vin := [88], year := 2020, make := [], model := [], miles := 1, price := 1, dom := 1 }) :=
  scored_fields_consistency
    [Op.ing [{ id := "G", vin := [88], year := 2020, make := [], model := [], miles := 1, price := 1, dom := 1 }]]
    (by decide)
    (normalize { id := "G", vin := [88], year := 2020, make := [], model := [], miles := 1, price := 1, dom := 1 })
    (show (normalize { id := "G", vin := [88], year := 2020, make := [], model := [], miles := 1, price := 1, dom := 1 })
        ∈ [normalize { id := "G", vin := [88], year := 2020, make := [], model := [], miles := 1, price := 1, dom := 1 }]
      from List.mem_singleton.mpr rfl)

theorem setScoreFields_override (st : StoredListing) (r1 r2 : ScoreResponse) :
    setScoreFields (setScoreFields st r1) r2 = setScoreFields st r2 := rfl

theorem pointUpd_override (r1 r2 : ScoreResponse) (ids : List String)
    (p : String × StoredListing) :
    pointUpd r2 ids (pointUpd r1 ids p) = pointUpd r2 ids p := by
  unfold pointUpd
  by_cases h : p.1 ∈ ids
  · simp [h, setScoreFields_override]
  · simp [h]

theorem keysNodup_ingest (items : List StoredListing) :
    ∀ s : Store, KeysNodup s.byId → KeysNodup (ingest s items).1.byId := by
  induction items with
  | nil =>
    intro s h
    exact h
  | cons it rest ih =>
    intro s h
    exact ih (ingestOne s it).1 (keysNodup_alistSet _ _ _ h)

theorem keysNodup_score (items : List Listing) :
    ∀ s : Store, KeysNodup s.byId → KeysNodup (score s items).1.byId := by
  induction items with
  | nil =>
    intro s h
    exact h
  | cons item rest ih =>
    intro s h
    exact ih (scoreStep s item).1 (keysNodup_updAll _ _ _ h)

theorem keysNodup_runOps (ops : List Op) : KeysNodup (runOps ops).byId := by
  suffices hgen : ∀ s : Store, KeysNodup s.byId →
      KeysNodup (ops.foldl applyOp s).byId by
    exact hgen emptyStore (by simp [KeysNodup, emptyStore])
  induction ops with
  | nil =>
    intro s h
    exact h
  | cons op rest ih =>
    intro s h
    apply ih
    cases op with
    | ing items => exact keysNodup_ingest items s h
    | sc items => exact keysNodup_score items s h

theorem scoreStep_override (s : Store) (f1 f2 : Listing)
    (hnd : KeysNodup s.byId) (h : canonVin f1.vin = canonVin f2.vin) :
    (scoreStep (scoreStep s f1).1 f2).1 = (scoreStep s f2).1 := by
  apply Store.ext
  · show updAll (scoreOne f2)
        ((alistGet (canonVin f2.vin) s.idsByVin).getD [])
        (updAll (scoreOne f1)
          ((alistGet (canonVin f1.vin) s.idsByVin).getD []) s.byId)
      = updAll (scoreOne f2)
          ((alistGet (canonVin f2.vin) s.idsByVin).getD []) s.byId
    rw [h]
    generalize (alistGet (canonVin f2.vin) s.idsByVin).getD [] = ids
    rw [updAll_eq_map (scoreOne f1) ids s.byId hnd]
    have hnd2 : KeysNodup (s.byId.map (pointUpd (scoreOne f1) ids)) := by
      unfold KeysNodup
      rw [keys_map_pointUpd]
      exact hnd
    rw [updAll_eq_map (scoreOne f2) ids _ hnd2,
      updAll_eq_map (scoreOne f2) ids s.byId hnd, List.map_map]
    apply List.map_congr_left
    intro p hp
    exact pointUpd_override _ _ _ p
  · rfl

/-- Claim C10: in the memory backend, re-scoring the same (canonical) VIN is
last-write-wins with no history: on any reachable store, scoring `f1` and
then `f2` produces exactly the store that scoring `f2` alone would produce,
every listing id indexed under the VIN carries precisely `f2`'s response
fields, and the list operation output is that of the `f2`-only store. -/
theorem rescore_last_write_wins (ops : List Op) (f1 f2 : Listing)
    (h : canonVin f1.vin = canonVin f2.vin) :
    (scoreStep (scoreStep (runOps ops) f1).1 f2).1
      = (scoreStep (runOps ops) f2).1 ∧
    (∀ lid ∈ (alistGet (canonVin f2.vin) (runOps ops).idsByVin).getD [],
      alistGet lid ((scoreStep (scoreStep (runOps ops) f1).1 f2).1).byId
        = (alistGet lid (runOps ops).byId).map
            (fun st => setScoreFields st (scoreOne f2))) ∧
    list_listings (scoreStep (scoreStep (runOps ops) f1).1 f2).1
      = list_listings (scoreStep (runOps ops) f2).1 := by
  have hstore := scoreStep_override (runOps ops) f1 f2 (keysNodup_runOps ops) h
  refine ⟨hstore, ?_, by rw [hstore]⟩
  intro lid hlid
  rw [hstore]
  show alistGet lid (updAll (scoreOne f2)
      ((alistGet (canonVin f2.vin) (runOps ops).idsByVin).getD [])
      (runOps ops).byId)
    = (alistGet lid (runOps ops).byId).map
        (fun st => setScoreFields st (scoreOne f2))
  exact updAll_get_mem _ _ _ _ hlid

/-- Witness for `rescore_last_write_wins`: one listing under VIN `X1` is
ingested, then VIN `x1` (lower case) is scored twice with different facts. -/
theorem rescore_last_write_wins_witness :
    (scoreStep (scoreStep (runOps [Op.ing [{ id := "A", vin := [88, 49], year := 2020, make := [], model := [], miles := 1, price := 1, dom := 1 }]]) { vin := [120, 49], price := 1, miles := 1, dom := 1 }).1 { vin := [88, 49], price := 2, miles := 2, dom := 50 }).1
      = (scoreStep (runOps [Op.ing [{ id := "A", vin := [88, 49], year := 2020, make := [], model := [], miles := 1, price := 1, dom := 1 }]]) { vin := [88, 49], price := 2, miles := 2, dom := 50 }).1 :=
  (rescore_last_write_wins [Op.ing [{ id := "A", vin := [88, 49], year := 2020, make := [], model := [], miles := 1, price := 1, dom := 1 }]] { vin := [120, 49], price := 1, miles := 1, dom := 1 } { vin := [88, 49], price := 2, miles := 2, dom := 50 } (by decide)).1

end AppSpec
